import Mathlib

/-!
Verification of the INNLab invertible-layer library (src/INN/utilities.py).

The tensor engine is modelled over the reals: a sample of dimension n is a
function Fin n → ℝ, a matrix is a Mathlib Matrix, and the trainable
sub-networks (f_log_s, f_t, m, g) are opaque functions, exactly as the
source treats them.  Batched operations act sample-wise in the source, so
the embedding works with a single sample where broadcasting is the only
batch interaction.  Floating point is modelled by exact real arithmetic.
-/

namespace INN

noncomputable section

open scoped BigOperators

/-! ## Masks (utilities.py, generate_mask)

The source builds a (1, dim) tensor of zeros and writes 1 at every even
index; dropping the broadcast axis it is a vector indexed by Fin dim. -/

/-- generate_mask from utilities.py: 1 at even indices, 0 at odd indices.
The identical class-method copies inside real_nvp_element and
combined_real_nvp are shared here. -/
def generate_mask (dim : ℕ) : Fin dim → ℝ :=
  fun i => if (i : ℕ) % 2 = 0 then 1 else 0

/-- A mask whose entries are the floats 0.0 or 1.0, as produced by
generate_mask and expected by the coupling layers. -/
def isBinary {n : ℕ} (b : Fin n → ℝ) : Prop :=
  ∀ i, b i = 0 ∨ b i = 1

/-! ## real_nvp_element (utilities.py lines 292-362) -/

/-- State of a real_nvp_element: fixed mask, the two sub-networks, the
numerical floor eps and the optional soft-clamp bound clip. -/
structure real_nvp_element (n : ℕ) where
  mask : Fin n → ℝ
  f_log_s : (Fin n → ℝ) → Fin n → ℝ
  f_t : (Fin n → ℝ) → Fin n → ℝ
  eps : ℝ
  clip : Option ℝ

/-- Constructor of real_nvp_element: a missing mask defaults to
generate_mask dim; eps defaults to 1e-8 and clip to None in the source. -/
def real_nvp_element.mk' (n : ℕ) (f_log_s f_t : (Fin n → ℝ) → Fin n → ℝ)
    (mask : Option (Fin n → ℝ)) (eps : ℝ := 1e-8) (clip : Option ℝ := none) :
    real_nvp_element n :=
  { mask := mask.getD (generate_mask n)
    f_log_s := f_log_s
    f_t := f_t
    eps := eps
    clip := clip }

/-- get_s: evaluates f_log_s on the masked input, optionally soft-clamps
log_s to [-clip, clip] via clip * tanh(log_s / clip), and returns
(s, log_s) with s = exp(log_s).  Mirrors utilities.py lines 319-332. -/
def real_nvp_element.get_s {n : ℕ} (e : real_nvp_element n) (x : Fin n → ℝ) :
    (Fin n → ℝ) × (Fin n → ℝ) :=
  let b := e.mask
  let log_s0 := e.f_log_s (fun i => b i * x i)
  let log_s : Fin n → ℝ :=
    match e.clip with
    | none => log_s0
    | some c => fun i => c * Real.tanh (log_s0 i / c)
  (fun i => Real.exp (log_s i), log_s)

/-- forward: y = b*x + (1-b)*(x*s + t), log_det_J = sum(log_s * (1-b)).
Note the source passes b*x into get_s, which masks again internally.
Mirrors utilities.py lines 334-348. -/
def real_nvp_element.forward {n : ℕ} (e : real_nvp_element n) (x : Fin n → ℝ) :
    (Fin n → ℝ) × ℝ :=
  let b := e.mask
  let sl := e.get_s (fun i => b i * x i)
  let s := sl.1
  let log_s := sl.2
  let log_det_J := ∑ i, log_s i * (1 - b i)
  let t := e.f_t (fun i => b i * x i)
  (fun i => b i * x i + (1 - b i) * (x i * s i + t i), log_det_J)

/-- inverse: x = b*y + (1-b)*(y - t) / (s + eps), with s, t recomputed
from the kept half b*y.  Mirrors utilities.py lines 350-362. -/
def real_nvp_element.inverse {n : ℕ} (e : real_nvp_element n) (y : Fin n → ℝ) :
    Fin n → ℝ :=
  let b := e.mask
  let sl := e.get_s (fun i => b i * y i)
  let s := sl.1
  let t := e.f_t (fun i => b i * y i)
  fun i => b i * y i + (1 - b i) * (y i - t i) / (s i + e.eps)

/-! ## combined_real_nvp (utilities.py lines 374-409) -/

/-- State of combined_real_nvp: the base mask and the two chained
real_nvp_element instances. -/
structure combined_real_nvp (n : ℕ) where
  mask : Fin n → ℝ
  nvp_1 : real_nvp_element n
  nvp_2 : real_nvp_element n

/-- Constructor of combined_real_nvp: a missing mask defaults to
generate_mask dim; the two elements receive the mask and its complement,
with eps left at the real_nvp_element default 1e-8. -/
def combined_real_nvp.mk' (n : ℕ) (f_log_s f_t : (Fin n → ℝ) → Fin n → ℝ)
    (mask : Option (Fin n → ℝ)) (clip : Option ℝ := none) :
    combined_real_nvp n :=
  let m := mask.getD (generate_mask n)
  { mask := m
    nvp_1 := real_nvp_element.mk' n f_log_s f_t (some m) 1e-8 clip
    nvp_2 := real_nvp_element.mk' n f_log_s f_t (some (fun i => 1 - m i)) 1e-8 clip }

/-- forward of combined_real_nvp: chains the two elements and adds their
log-determinants. -/
def combined_real_nvp.forward {n : ℕ} (c : combined_real_nvp n)
    (x : Fin n → ℝ) : (Fin n → ℝ) × ℝ :=
  let r1 := c.nvp_1.forward x
  let r2 := c.nvp_2.forward r1.1
  (r2.1, r1.2 + r2.2)

/-- inverse of combined_real_nvp: applies the two element inverses in
reverse order. -/
def combined_real_nvp.inverse {n : ℕ} (c : combined_real_nvp n)
    (y : Fin n → ℝ) : Fin n → ℝ :=
  c.nvp_1.inverse (c.nvp_2.inverse y)

/-! ## NICE (utilities.py lines 412-446) -/

/-- State of a NICE layer: fixed mask and the additive sub-network m. -/
structure NICE (n : ℕ) where
  mask : Fin n → ℝ
  m : (Fin n → ℝ) → Fin n → ℝ

/-- Constructor of NICE: a missing mask defaults to generate_mask dim. -/
def NICE.mk' (n : ℕ) (m : (Fin n → ℝ) → Fin n → ℝ)
    (mask : Option (Fin n → ℝ)) : NICE n :=
  { mask := mask.getD (generate_mask n), m := m }

/-- forward of NICE: two additive half-steps,
x1 = x + (1-b)*m(b*x) then y = x1 + b*m((1-b)*x1). -/
def NICE.forward {n : ℕ} (e : NICE n) (x : Fin n → ℝ) : Fin n → ℝ :=
  let b := e.mask
  let x1 := fun i => x i + (1 - b i) * e.m (fun j => b j * x j) i
  fun i => x1 i + b i * e.m (fun j => (1 - b j) * x1 j) i

/-- logdet of NICE is identically 0 (volume preserving). -/
def NICE.logdet {n : ℕ} (_e : NICE n) : ℝ := 0

/-- inverse of NICE: subtracts the two half-steps in reverse order. -/
def NICE.inverse {n : ℕ} (e : NICE n) (y : Fin n → ℝ) : Fin n → ℝ :=
  let b := e.mask
  let y1 := fun i => y i - b i * e.m (fun j => (1 - b j) * y j) i
  fun i => y1 i - (1 - b i) * e.m (fun j => b j * y1 j) i

/-! ## PLUMatrix / InvertibleLinear (utilities.py lines 203-289)

The source samples a random orthogonal matrix and LU-unpacks it; the
unpacked P is a permutation matrix, modelled by the permutation it
realises.  _L, _U and log_s are the trainable parameters; the claims
quantify over arbitrary real values for them. -/

/-- State of a PLUMatrix: fixed permutation (the unpacked P), trainable
_L and _U factors, trainable diagonal vector log_s, the positive_s flag
and the numerical floor eps. -/
structure PLUMatrix (n : ℕ) where
  σ : Equiv.Perm (Fin n)
  _L : Matrix (Fin n) (Fin n) ℝ
  _U : Matrix (Fin n) (Fin n) ℝ
  log_s : Fin n → ℝ
  positive_s : Bool
  eps : ℝ

/-- The fixed permutation matrix P of a PLUMatrix. -/
def PLUMatrix.P {n : ℕ} (m : PLUMatrix n) : Matrix (Fin n) (Fin n) ℝ :=
  m.σ.permMatrix ℝ

/-- L(): torch.tril(_L, diagonal=-1) + I, i.e. the strictly lower part of
_L plus the identity diagonal.  Mirrors utilities.py lines 244-248. -/
def PLUMatrix.L {n : ℕ} (m : PLUMatrix n) : Matrix (Fin n) (Fin n) ℝ :=
  Matrix.of fun i j => (if j < i then m._L i j else 0) + (if i = j then 1 else 0)

/-- U(): torch.triu(_U, diagonal=1), the strictly upper part of _U. -/
def PLUMatrix.U {n : ℕ} (m : PLUMatrix n) : Matrix (Fin n) (Fin n) ℝ :=
  Matrix.of fun i j => if i < j then m._U i j else 0

/-- The diagonal scale used by W(): exp(log_s) when positive_s, else the
raw log_s values. -/
def PLUMatrix.s {n : ℕ} (m : PLUMatrix n) : Fin n → ℝ :=
  fun i => if m.positive_s then Real.exp (m.log_s i) else m.log_s i

/-- W() = P @ L() @ (U() + diag(s)).  Mirrors utilities.py lines 253-258. -/
def PLUMatrix.W {n : ℕ} (m : PLUMatrix n) : Matrix (Fin n) (Fin n) ℝ :=
  m.P * m.L * (m.U + Matrix.diagonal m.s)

/-- inv_W(): torch.inverse(W()), modelled by the matrix inverse. -/
def PLUMatrix.inv_W {n : ℕ} (m : PLUMatrix n) : Matrix (Fin n) (Fin n) ℝ :=
  m.W⁻¹

/-- logdet(): sum(log_s) when positive_s, else sum(log(|log_s| + eps)).
Mirrors utilities.py lines 266-270. -/
def PLUMatrix.logdet {n : ℕ} (m : PLUMatrix n) : ℝ :=
  if m.positive_s then ∑ i, m.log_s i
  else ∑ i, Real.log (|m.log_s i| + m.eps)

/-- InvertibleLinear wraps one PLUMatrix. -/
structure InvertibleLinear (n : ℕ) where
  mat : PLUMatrix n

/-- InvertibleLinear.forward: F.linear(x, W()), i.e. the sample vector is
multiplied by W (out_j = sum_i W j i * x i). -/
def InvertibleLinear.forward {n : ℕ} (c : InvertibleLinear n)
    (x : Fin n → ℝ) : Fin n → ℝ :=
  c.mat.W.mulVec x

/-- InvertibleLinear.inverse: F.linear(y, inv_W()). -/
def InvertibleLinear.inverse {n : ℕ} (c : InvertibleLinear n)
    (y : Fin n → ℝ) : Fin n → ℝ :=
  c.mat.inv_W.mulVec y

/-- InvertibleLinear.logdet: the scalar PLU log-det repeated over the
batch axis. -/
def InvertibleLinear.logdet {n : ℕ} (c : InvertibleLinear n)
    (batch : ℕ) : Fin batch → ℝ :=
  fun _ => c.mat.logdet

/-! ## iResNet.logdet (utilities.py lines 62-75)

The vector-Jacobian product of the sub-network g at the fixed input x is
an external automatic-differentiation primitive; the claim is about the
arithmetic the loop performs on it, so it is abstracted as a map J on
cotangent vectors.  The eval()/train() mode toggles around the loop do
not affect the computed value and are not modelled. -/

/-- One probe of the power-series loop: after k inner iterations the pair
holds (w, acc) where w is the current cotangent and acc the partial sum.
Iteration k (1-based) performs w = vjp(g, x, w) and adds
(-1)^(k+1) * sum(w * v) / k. -/
def logdet_probe {n : ℕ} (J : (Fin n → ℝ) → Fin n → ℝ) (v : Fin n → ℝ) :
    ℕ → (Fin n → ℝ) × ℝ
  | 0 => (v, 0)
  | k + 1 =>
      let p := logdet_probe J v k
      let w := J p.1
      (w, p.2 + (-1 : ℝ) ^ (k + 1 + 1) * (∑ i, w i * v i) / (k + 1))

/-- iResNet.logdet: accumulates the truncated power series over num_iter
probe vectors v (the inner loop runs k = 1 .. num_n - 1) and divides the
total by num_iter. -/
def iResNet.logdet {n : ℕ} (num_iter num_n : ℕ)
    (J : (Fin n → ℝ) → Fin n → ℝ) (v : Fin num_iter → Fin n → ℝ) : ℝ :=
  (∑ p : Fin num_iter, (logdet_probe J (v p) (num_n - 1)).2) / num_iter

/-! ## Distributions (utilities.py lines 142-199)

The distributions dispatch purely on len(x.shape), so a tensor is
modelled by its shape list together with its row-major flattened data;
reshape(batch, -1).sum(-1) and sum(dim=-1) both become per-sample chunk
sums over the flattened data. -/

/-- A tensor as seen by the distributions: shape and row-major data. -/
structure Tensor where
  shape : List ℕ
  data : List ℝ

/-- Per-sample sums of consecutive chunks of the flattened data: entry b
is the sum of elements b*size .. b*size+size-1. -/
def chunkSums (l : List ℝ) (batch size : ℕ) : List ℝ :=
  (List.range batch).map fun b => ((l.drop (b * size)).take size).sum

/-- NormalDistribution.logp: pointwise log-density -x^2 followed by the
rank dispatch of utilities.py lines 149-165; ranks 2, 3, 4 sum over all
non-batch axes, rank 1 and all other ranks raise. -/
def NormalDistribution.logp (x : Tensor) : Except String (List ℝ) :=
  let logps := x.data.map fun v => -(v ^ 2)
  if x.shape.length = 1 then
    Except.error "The input must have a batch dimension"
  else if x.shape.length = 2 then
    Except.ok (chunkSums logps (x.shape.headD 0) x.shape.tail.prod)
  else if x.shape.length = 3 then
    Except.ok (chunkSums logps (x.shape.headD 0) x.shape.tail.prod)
  else if x.shape.length = 4 then
    Except.ok (chunkSums logps (x.shape.headD 0) x.shape.tail.prod)
  else
    Except.error "The input dimension should be 1,2,3, or 4"

/-- State of a LaplaceDistribution: location mu and scale beta; the
pointwise log-density of Laplace(mu, beta) is
-log(2 beta) - |v - mu| / beta. -/
structure LaplaceDistribution where
  mu : ℝ
  beta : ℝ

/-- LaplaceDistribution.logp: pointwise Laplace log-density followed by
the same rank dispatch of utilities.py lines 180-196. -/
def LaplaceDistribution.logp (d : LaplaceDistribution) (x : Tensor) :
    Except String (List ℝ) :=
  let logps := x.data.map fun v => -Real.log (2 * d.beta) - |v - d.mu| / d.beta
  if x.shape.length = 1 then
    Except.error "The input must have a batch dimension"
  else if x.shape.length = 2 then
    Except.ok (chunkSums logps (x.shape.headD 0) x.shape.tail.prod)
  else if x.shape.length = 3 then
    Except.ok (chunkSums logps (x.shape.headD 0) x.shape.tail.prod)
  else if x.shape.length = 4 then
    Except.ok (chunkSums logps (x.shape.headD 0) x.shape.tail.prod)
  else
    Except.error "The input dimension should be 1,2,3, or 4"

/-! ## MuVar / LazyFeatureSplit (utilities.py lines 529-639)

MuVar dispatches on the rank of its first input, so its inputs are
modelled by a rank-indexed tensor type with nested lists; ranks above 4
never reach the data, so only the rank is kept for them. -/

/-- Rank-indexed tensor for the MuVar cluster: t0 .. t4 are ranks 0-4
with nested-list data, higher r is a tensor of rank 5 + r whose data is
never inspected. -/
inductive T where
  | t0 (x : ℝ)
  | t1 (x : List ℝ)
  | t2 (x : List (List ℝ))
  | t3 (x : List (List (List ℝ)))
  | t4 (x : List (List (List (List ℝ))))
  | higher (r : ℕ)

/-- len(x.shape) of a rank-indexed tensor. -/
def T.rank : T → ℕ
  | .t0 _ => 0
  | .t1 _ => 1
  | .t2 _ => 2
  | .t3 _ => 3
  | .t4 _ => 4
  | .higher r => 5 + r

/-- nn.Linear applied to one sample: out_j = sum_i W j i * x i + b j. -/
def linearApply (W : List (List ℝ)) (b : List ℝ) (x : List ℝ) : List ℝ :=
  (List.range W.length).map fun j =>
    (∑ i ∈ Finset.range ((W.getD j []).length),
      (W.getD j []).getD i 0 * x.getD i 0) + b.getD j 0

/-- nn.Conv1d with kernel_size 3 and padding 1 applied to one sample
(channels x length): out o p = b o + sum_i sum_{j<3} W o i j * x i (p+j-1),
with zero padding outside the valid range. -/
def conv1dApply (W : List (List (List ℝ))) (b : List ℝ)
    (x : List (List ℝ)) : List (List ℝ) :=
  let len := (x.headD []).length
  (List.range W.length).map fun o =>
    (List.range len).map fun p =>
      b.getD o 0 +
        ∑ i ∈ Finset.range x.length, ∑ j ∈ Finset.range 3,
          ((W.getD o []).getD i []).getD j 0 *
            (if 1 ≤ p + j then (x.getD i []).getD (p + j - 1) 0 else 0)

/-- nn.Conv2d with kernel_size 3 and padding 1 applied to one sample
(channels x height x width), with zero padding. -/
def conv2dApply (W : List (List (List (List ℝ)))) (b : List ℝ)
    (x : List (List (List ℝ))) : List (List (List ℝ)) :=
  let h := (x.headD []).length
  let w := ((x.headD []).headD []).length
  (List.range W.length).map fun o =>
    (List.range h).map fun p =>
      (List.range w).map fun q =>
        b.getD o 0 +
          ∑ i ∈ Finset.range x.length, ∑ j ∈ Finset.range 3, ∑ k ∈ Finset.range 3,
            (((W.getD o []).getD i []).getD j []).getD k 0 *
              (if 1 ≤ p + j ∧ 1 ≤ q + k then
                ((x.getD i []).getD (p + j - 1) []).getD (q + k - 1) 0
              else 0)

/-- State of MuVarVector: the feature sizes, the eps floor inherited from
_MuVar, and the weights and biases of the two linear maps. -/
structure MuVarVector where
  feature_in : ℕ
  feature_out : ℕ
  eps : ℝ
  linear_mu_weight : List (List ℝ)
  linear_mu_bias : List ℝ
  linear_log_var_weight : List (List ℝ)
  linear_log_var_bias : List ℝ

/-- Constructor of MuVarVector: both linear maps are
(feature_in - feature_out) x feature_out and zero-initialized
(_initialize_weights), eps defaults to 1e-8 from _MuVar. -/
def MuVarVector.mk' (fi fo : ℕ) : MuVarVector :=
  { feature_in := fi
    feature_out := fo
    eps := 1e-8
    linear_mu_weight := List.replicate (fi - fo) (List.replicate fo 0)
    linear_mu_bias := List.replicate (fi - fo) 0
    linear_log_var_weight := List.replicate (fi - fo) (List.replicate fo 0)
    linear_log_var_bias := List.replicate (fi - fo) 0 }

/-- MuVarVector.forward on a batch: mu = linear_mu(y),
var = eps + exp(linear_log_var(y)), log_det = -sum(log(var), dim=-1). -/
def MuVarVector.forward (e : MuVarVector) (y : List (List ℝ)) :
    List (List ℝ) × List (List ℝ) × List ℝ :=
  let mu := y.map (linearApply e.linear_mu_weight e.linear_mu_bias)
  let var := y.map fun row =>
    (linearApply e.linear_log_var_weight e.linear_log_var_bias row).map
      fun v => e.eps + Real.exp v
  let log_det := var.map fun row => -(row.map Real.log).sum
  (mu, var, log_det)

/-- State of MuVar1d: feature sizes, eps, and the two zero-initialized
kernel-size-3 conv layers. -/
structure MuVar1d where
  feature_in : ℕ
  feature_out : ℕ
  eps : ℝ
  conv_mu_weight : List (List (List ℝ))
  conv_mu_bias : List ℝ
  conv_log_var_weight : List (List (List ℝ))
  conv_log_var_bias : List ℝ

/-- Constructor of MuVar1d with zero-initialized weights and biases. -/
def MuVar1d.mk' (fi fo : ℕ) : MuVar1d :=
  { feature_in := fi
    feature_out := fo
    eps := 1e-8
    conv_mu_weight := List.replicate (fi - fo) (List.replicate fo (List.replicate 3 0))
    conv_mu_bias := List.replicate (fi - fo) 0
    conv_log_var_weight := List.replicate (fi - fo) (List.replicate fo (List.replicate 3 0))
    conv_log_var_bias := List.replicate (fi - fo) 0 }

/-- MuVar1d.forward on a batch: mu = conv_mu(y),
var = eps + exp(conv_log_var(y)),
log_det = -log(var).reshape(batch, -1).sum(-1). -/
def MuVar1d.forward (e : MuVar1d) (y : List (List (List ℝ))) :
    List (List (List ℝ)) × List (List (List ℝ)) × List ℝ :=
  let mu := y.map (conv1dApply e.conv_mu_weight e.conv_mu_bias)
  let var := y.map fun sample =>
    (conv1dApply e.conv_log_var_weight e.conv_log_var_bias sample).map
      fun row => row.map fun v => e.eps + Real.exp v
  let log_det := var.map fun sample =>
    -((sample.map fun row => (row.map Real.log).sum).sum)
  (mu, var, log_det)

/-- State of MuVar2d: feature sizes, eps, and the two zero-initialized
3x3 conv layers. -/
structure MuVar2d where
  feature_in : ℕ
  feature_out : ℕ
  eps : ℝ
  conv_mu_weight : List (List (List (List ℝ)))
  conv_mu_bias : List ℝ
  conv_log_var_weight : List (List (List (List ℝ)))
  conv_log_var_bias : List ℝ

/-- Constructor of MuVar2d with zero-initialized weights and biases. -/
def MuVar2d.mk' (fi fo : ℕ) : MuVar2d :=
  { feature_in := fi
    feature_out := fo
    eps := 1e-8
    conv_mu_weight :=
      List.replicate (fi - fo) (List.replicate fo (List.replicate 3 (List.replicate 3 0)))
    conv_mu_bias := List.replicate (fi - fo) 0
    conv_log_var_weight :=
      List.replicate (fi - fo) (List.replicate fo (List.replicate 3 (List.replicate 3 0)))
    conv_log_var_bias := List.replicate (fi - fo) 0 }

/-- MuVar2d.forward on a batch: mu = conv_mu(y),
var = eps + exp(conv_log_var(y)),
log_det = -log(var).reshape(batch, -1).sum(-1). -/
def MuVar2d.forward (e : MuVar2d) (y : List (List (List (List ℝ)))) :
    List (List (List (List ℝ))) × List (List (List (List ℝ))) × List ℝ :=
  let mu := y.map (conv2dApply e.conv_mu_weight e.conv_mu_bias)
  let var := y.map fun sample =>
    (conv2dApply e.conv_log_var_weight e.conv_log_var_bias sample).map
      fun plane => plane.map fun row => row.map fun v => e.eps + Real.exp v
  let log_det := var.map fun sample =>
    -((sample.map fun plane => (plane.map fun row => (row.map Real.log).sum).sum).sum)
  (mu, var, log_det)

/-- The rank-specific sub-estimator bound by MuVar._initialize. -/
inductive MuVarEst where
  | vec (e : MuVarVector)
  | oneD (e : MuVar1d)
  | twoD (e : MuVar2d)

/-- Applying the bound sub-estimator self.mu_var(y); the wrapped results
keep their ranks.  A rank other than the one the estimator was built for
fails inside the tensor engine. -/
def MuVarEst.apply : MuVarEst → T → Except String (T × T × List ℝ)
  | .vec e, T.t2 y =>
      let r := e.forward y
      Except.ok (T.t2 r.1, T.t2 r.2.1, r.2.2)
  | .oneD e, T.t3 y =>
      let r := e.forward y
      Except.ok (T.t3 r.1, T.t3 r.2.1, r.2.2)
  | .twoD e, T.t4 y =>
      let r := e.forward y
      Except.ok (T.t4 r.1, T.t4 r.2.1, r.2.2)
  | _, _ => Except.error "shape mismatch in sub-estimator"

/-- State of MuVar (LazyFeatureSplit): feature sizes, the initialized
flag and the lazily bound sub-estimator (absent until bound). -/
structure MuVar where
  feature_in : ℕ
  feature_out : ℕ
  initialized : Bool
  mu_var : Option MuVarEst

/-- Constructor of MuVar: not initialized, no sub-estimator bound. -/
def MuVar.mk' (fi fo : ℕ) : MuVar :=
  { feature_in := fi, feature_out := fo, initialized := false, mu_var := none }

/-- MuVar._initialize: batch, *shape = y.shape raises for rank 0;
num_features = shape[0] raises for rank 1 — both before the initialized
flag is set.  Otherwise the flag is set and the dispatch on len(shape)
binds a sub-estimator for per-sample ranks 1, 2, 3 and silently binds
nothing for higher ranks.  Returns the mutated state and the raised
exception, if any. -/
def MuVar._initialize (m : MuVar) (y : T) : MuVar × Option String :=
  match y with
  | T.t0 _ => (m, some "ValueError: not enough values to unpack")
  | T.t1 _ => (m, some "IndexError: tuple index out of range")
  | T.t2 _ =>
      ({ m with
          initialized := true,
          mu_var := some (MuVarEst.vec (MuVarVector.mk' m.feature_in m.feature_out)) },
       none)
  | T.t3 _ =>
      ({ m with
          initialized := true,
          mu_var := some (MuVarEst.oneD (MuVar1d.mk' m.feature_in m.feature_out)) },
       none)
  | T.t4 _ =>
      ({ m with
          initialized := true,
          mu_var := some (MuVarEst.twoD (MuVar2d.mk' m.feature_in m.feature_out)) },
       none)
  | T.higher _ => ({ m with initialized := true }, none)

/-- MuVar.forward: runs _initialize on the first call (propagating its
exception without applying anything), then applies the bound
sub-estimator; an unbound self.mu_var raises AttributeError. -/
def MuVar.forward (m : MuVar) (y : T) :
    MuVar × Except String (T × T × List ℝ) :=
  if m.initialized then
    (m, match m.mu_var with
        | none => Except.error "AttributeError: mu_var is not bound"
        | some e => e.apply y)
  else
    match m._initialize y with
    | (m', some err) => (m', Except.error err)
    | (m', none) =>
        (m', match m'.mu_var with
             | none => Except.error "AttributeError: mu_var is not bound"
             | some e => e.apply y)

/-! ## The analytic coupling Jacobian -/

/-- The analytic Jacobian of the affine coupling transform, as the spec
describes it: identity rows on the kept coordinates (mask = 1), and on
each transformed row the diagonal scale s together with arbitrary
cross-derivative entries D against kept columns only (s and t depend
only on the kept half, so transformed columns contribute nothing
off-diagonal). -/
def coupling_jacobian {n : ℕ} (b s : Fin n → ℝ)
    (D : Matrix (Fin n) (Fin n) ℝ) : Matrix (Fin n) (Fin n) ℝ :=
  Matrix.of fun i j =>
    if b i = 1 then (if i = j then 1 else 0)
    else if i = j then s i
    else if b j = 1 then D i j else 0

/-! ## Concrete instances used to evaluate the theorems -/

/-- A concrete 1-dimensional PLUMatrix in positive_s mode: identity
permutation, zero _L and _U, log_s = 1. -/
def pluPos : PLUMatrix 1 :=
  { σ := Equiv.refl (Fin 1), _L := 0, _U := 0, log_s := fun _ => 1,
    positive_s := true, eps := 1e-8 }

/-- A concrete 1-dimensional PLUMatrix with positive_s off, eps = 0 and
nonzero diagonal parameter. -/
def pluNeg : PLUMatrix 1 :=
  { σ := Equiv.refl (Fin 1), _L := 0, _U := 0, log_s := fun _ => 1,
    positive_s := false, eps := 0 }

/-- A concrete 2-dimensional real_nvp_element with zero sub-networks,
default mask and eps = 0. -/
def nvpZero : real_nvp_element 2 :=
  real_nvp_element.mk' 2 (fun _ _ => 0) (fun _ _ => 0) none 0 none

/-- A concrete 2-dimensional real_nvp_element with zero sub-networks and
the default eps = 1e-8. -/
def nvpDefault : real_nvp_element 2 :=
  real_nvp_element.mk' 2 (fun _ _ => 0) (fun _ _ => 0) none

/-- A concrete combined_real_nvp whose two elements carry eps = 0. -/
def combinedZero : combined_real_nvp 2 :=
  { mask := generate_mask 2
    nvp_1 := real_nvp_element.mk' 2 (fun _ _ => 0) (fun _ _ => 0)
      (some (generate_mask 2)) 0 none
    nvp_2 := real_nvp_element.mk' 2 (fun _ _ => 0) (fun _ _ => 0)
      (some (fun i => 1 - generate_mask 2 i)) 0 none }

/-- A concrete NICE layer with a zero sub-network. -/
def niceZero : NICE 2 := NICE.mk' 2 (fun _ _ => 0) none

/-- A concrete InvertibleLinear wrapping pluPos. -/
def linPos : InvertibleLinear 1 := { mat := pluPos }

/-- The all-ones sample vector, used as a concrete input. -/
def oneVec (n : ℕ) : Fin n → ℝ := fun _ => 1

/-- A sub-network returning zero everywhere. -/
def zeroNet (n : ℕ) : (Fin n → ℝ) → Fin n → ℝ := fun _ _ => 0

/-- A concrete combined_real_nvp built by the constructor with the
default mask. -/
def combinedDefault : combined_real_nvp 2 :=
  combined_real_nvp.mk' 2 (zeroNet 2) (zeroNet 2) none none

/-- A concrete 2x2 tensor for the distribution witnesses. -/
def tens22 : Tensor := { shape := [2, 2], data := [0, 1, 2, 3] }

/-- A concrete rank-1 tensor. -/
def tens1 : Tensor := { shape := [2], data := [0, 1] }

/-- A concrete Laplace distribution with mu = 0, beta = 1. -/
def lap01 : LaplaceDistribution := { mu := 0, beta := 1 }

/-- The MuVar state reached after a first rank-2 call with
feature_in = 2, feature_out = 1. -/
def muVarInit21 : MuVar :=
  { feature_in := 2, feature_out := 1, initialized := true,
    mu_var := some (MuVarEst.vec (MuVarVector.mk' 2 1)) }

/-! ## Round-trip lemmas for the closed-form layers -/

/-- Pointwise form of real_nvp_element.forward. -/
lemma real_nvp_element.forward_apply {n : ℕ} (e : real_nvp_element n)
    (x : Fin n → ℝ) (i : Fin n) :
    (e.forward x).1 i =
      e.mask i * x i + (1 - e.mask i) *
        (x i * (e.get_s fun j => e.mask j * x j).1 i +
          e.f_t (fun j => e.mask j * x j) i) := rfl

/-- The log-det component of real_nvp_element.forward. -/
lemma real_nvp_element.forward_snd {n : ℕ} (e : real_nvp_element n)
    (x : Fin n → ℝ) :
    (e.forward x).2 =
      ∑ i, (e.get_s fun j => e.mask j * x j).2 i * (1 - e.mask i) := rfl

/-- Pointwise form of real_nvp_element.inverse. -/
lemma real_nvp_element.inverse_apply {n : ℕ} (e : real_nvp_element n)
    (y : Fin n → ℝ) (i : Fin n) :
    e.inverse y i =
      e.mask i * y i + (1 - e.mask i) *
        (y i - e.f_t (fun j => e.mask j * y j) i) /
          ((e.get_s fun j => e.mask j * y j).1 i + e.eps) := rfl

/-- The s component of get_s is the exponential of its log_s component. -/
lemma real_nvp_element.get_s_fst {n : ℕ} (e : real_nvp_element n)
    (x : Fin n → ℝ) (i : Fin n) :
    (e.get_s x).1 i = Real.exp ((e.get_s x).2 i) := rfl

/-- The s component of get_s is strictly positive. -/
lemma real_nvp_element.get_s_pos {n : ℕ} (e : real_nvp_element n)
    (x : Fin n → ℝ) (i : Fin n) : 0 < (e.get_s x).1 i := by
  rw [e.get_s_fst]
  exact Real.exp_pos _

/-- With a 0/1 mask the kept half of the forward output equals the kept
half of the input: this is what makes the closed-form inversion valid. -/
lemma real_nvp_element.kept_half {n : ℕ} (e : real_nvp_element n)
    (x : Fin n → ℝ) (hb : isBinary e.mask) :
    (fun j => e.mask j * (e.forward x).1 j) = fun j => e.mask j * x j := by
  funext j
  rcases hb j with h | h <;> rw [e.forward_apply, h] <;> ring

/-- Kept coordinates are recovered exactly by inverse after forward. -/
lemma real_nvp_element.roundtrip_kept {n : ℕ} (e : real_nvp_element n)
    (x : Fin n → ℝ) (hb : isBinary e.mask) (i : Fin n)
    (h1 : e.mask i = 1) : e.inverse (e.forward x).1 i = x i := by
  rw [e.inverse_apply, e.kept_half x hb, e.forward_apply, h1]
  ring

/-- Transformed coordinates are recovered up to the factor s/(s+eps). -/
lemma real_nvp_element.roundtrip_transformed {n : ℕ} (e : real_nvp_element n)
    (x : Fin n → ℝ) (hb : isBinary e.mask) (i : Fin n)
    (h0 : e.mask i = 0) :
    e.inverse (e.forward x).1 i =
      x i * (e.get_s fun j => e.mask j * x j).1 i /
        ((e.get_s fun j => e.mask j * x j).1 i + e.eps) := by
  rw [e.inverse_apply, e.kept_half x hb, e.forward_apply, h0]
  ring

/-- With eps = 0 the round trip of a real_nvp_element is exact. -/
lemma real_nvp_element.roundtrip_exact {n : ℕ} (e : real_nvp_element n)
    (x : Fin n → ℝ) (hb : isBinary e.mask) (heps : e.eps = 0) :
    e.inverse (e.forward x).1 = x := by
  funext i
  rcases hb i with h0 | h1
  · rw [e.roundtrip_transformed x hb i h0, heps, add_zero, mul_div_assoc,
      div_self (ne_of_gt (e.get_s_pos _ i)), mul_one]
  · exact e.roundtrip_kept x hb i h1

/-- Pointwise form of NICE.forward, with the half-step substituted. -/
lemma NICE.forward_halfsteps {n : ℕ} (e : NICE n) (x : Fin n → ℝ) (i : Fin n) :
    e.forward x i =
      (x i + (1 - e.mask i) * e.m (fun k => e.mask k * x k) i) +
        e.mask i * e.m (fun k => (1 - e.mask k) *
          (x k + (1 - e.mask k) * e.m (fun l => e.mask l * x l) k)) i := rfl

/-- Pointwise form of NICE.inverse, with the half-step substituted. -/
lemma NICE.inverse_halfsteps {n : ℕ} (e : NICE n) (y : Fin n → ℝ) (i : Fin n) :
    e.inverse y i =
      (y i - e.mask i * e.m (fun k => (1 - e.mask k) * y k) i) -
        (1 - e.mask i) * e.m (fun k => e.mask k *
          (y k - e.mask k * e.m (fun l => (1 - e.mask l) * y l) k)) i := rfl

/-- The NICE round trip is exact for a 0/1 mask. -/
lemma NICE.roundtrip_nice {n : ℕ} (e : NICE n) (x : Fin n → ℝ)
    (hb : isBinary e.mask) : e.inverse (e.forward x) = x := by
  have hA : (fun j => (1 - e.mask j) * e.forward x j) =
      fun k => (1 - e.mask k) *
        (x k + (1 - e.mask k) * e.m (fun l => e.mask l * x l) k) := by
    funext j
    rw [e.forward_halfsteps x j]
    rcases hb j with h | h <;> rw [h] <;> ring
  have hmA : e.m (fun j => (1 - e.mask j) * e.forward x j) =
      e.m (fun k => (1 - e.mask k) *
        (x k + (1 - e.mask k) * e.m (fun l => e.mask l * x l) k)) :=
    congrArg e.m hA
  have hy1 : ∀ j, e.forward x j -
      e.mask j * e.m (fun k => (1 - e.mask k) * e.forward x k) j =
      x j + (1 - e.mask j) * e.m (fun k => e.mask k * x k) j := by
    intro j
    rw [e.forward_halfsteps x j, hmA]
    ring
  have hB : (fun j => e.mask j * (e.forward x j -
      e.mask j * e.m (fun k => (1 - e.mask k) * e.forward x k) j)) =
      fun k => e.mask k * x k := by
    funext j
    rw [hy1 j]
    rcases hb j with h | h <;> rw [h] <;> ring
  have hmB : e.m (fun j => e.mask j * (e.forward x j -
      e.mask j * e.m (fun k => (1 - e.mask k) * e.forward x k) j)) =
      e.m (fun k => e.mask k * x k) := congrArg e.m hB
  funext i
  rw [e.inverse_halfsteps (e.forward x) i, hmB, hy1 i]
  ring

/-- The InvertibleLinear round trip is exact whenever W is invertible. -/
lemma InvertibleLinear.roundtrip_linear {n : ℕ} (c : InvertibleLinear n)
    (x : Fin n → ℝ) (h : IsUnit c.mat.W.det) :
    c.inverse (c.forward x) = x := by
  unfold InvertibleLinear.inverse InvertibleLinear.forward PLUMatrix.inv_W
  rw [Matrix.mulVec_mulVec, Matrix.nonsing_inv_mul _ h, Matrix.one_mulVec]

/-- C1: composing forward then inverse recovers the input for each
closed-form layer: for real_nvp_element the kept coordinates return
exactly and the transformed coordinates return up to the factor
s/(s+eps) coming from the eps added to the divisor (exactly when
eps = 0); hence combined_real_nvp inverts exactly when its two elements
carry eps = 0; NICE inverts exactly; InvertibleLinear inverts exactly
whenever its PLU matrix is invertible. -/
theorem roundtrip_inverse_forward :
    (∀ (n : ℕ) (e : real_nvp_element n) (x : Fin n → ℝ), isBinary e.mask →
      (∀ i, e.mask i = 1 → e.inverse (e.forward x).1 i = x i) ∧
      (∀ i, e.mask i = 0 →
        e.inverse (e.forward x).1 i =
          x i * (e.get_s fun j => e.mask j * x j).1 i /
            ((e.get_s fun j => e.mask j * x j).1 i + e.eps)) ∧
      (e.eps = 0 → e.inverse (e.forward x).1 = x)) ∧
    (∀ (n : ℕ) (c : combined_real_nvp n) (x : Fin n → ℝ),
      isBinary c.nvp_1.mask → isBinary c.nvp_2.mask →
      c.nvp_1.eps = 0 → c.nvp_2.eps = 0 →
      c.inverse (c.forward x).1 = x) ∧
    (∀ (n : ℕ) (e : NICE n) (x : Fin n → ℝ), isBinary e.mask →
      e.inverse (e.forward x) = x) ∧
    (∀ (n : ℕ) (c : InvertibleLinear n) (x : Fin n → ℝ),
      IsUnit c.mat.W.det → c.inverse (c.forward x) = x) := by
  refine ⟨?_, ?_, ?_, ?_⟩
  · intro n e x hb
    exact ⟨fun i h1 => e.roundtrip_kept x hb i h1,
      fun i h0 => e.roundtrip_transformed x hb i h0,
      fun heps => e.roundtrip_exact x hb heps⟩
  · intro n c x hb1 hb2 he1 he2
    show c.nvp_1.inverse (c.nvp_2.inverse (c.nvp_2.forward (c.nvp_1.forward x).1).1) = x
    rw [c.nvp_2.roundtrip_exact _ hb2 he2, c.nvp_1.roundtrip_exact x hb1 he1]
  · intro n e x hb
    exact e.roundtrip_nice x hb
  · intro n c x h
    exact c.roundtrip_linear x h

/-! ## Determinant structure of the PLU factorization -/

/-- The reconstructed L factor has unit diagonal for any parameters. -/
lemma PLUMatrix.L_diag {n : ℕ} (m : PLUMatrix n) (i : Fin n) :
    m.L i i = 1 := by
  simp [PLUMatrix.L]

/-- The reconstructed L factor has zero entries above the diagonal. -/
lemma PLUMatrix.L_above {n : ℕ} (m : PLUMatrix n) (i j : Fin n)
    (h : i < j) : m.L i j = 0 := by
  simp [PLUMatrix.L, lt_asymm h, Fin.ne_of_lt h]

/-- The reconstructed U factor is strictly upper triangular. -/
lemma PLUMatrix.U_lower {n : ℕ} (m : PLUMatrix n) (i j : Fin n)
    (h : ¬ i < j) : m.U i j = 0 := by
  simp [PLUMatrix.U, h]

/-- det L() = 1: L is lower triangular with unit diagonal. -/
lemma PLUMatrix.det_L {n : ℕ} (m : PLUMatrix n) : m.L.det = 1 := by
  rw [Matrix.det_of_lowerTriangular m.L]
  · simp [PLUMatrix.L_diag]
  · intro i j hij
    exact m.L_above i j hij

/-- det (U() + diag s) = product of s: the matrix is upper triangular
with s on the diagonal. -/
lemma PLUMatrix.det_U_add_diag {n : ℕ} (m : PLUMatrix n) :
    (m.U + Matrix.diagonal m.s).det = ∏ i, m.s i := by
  rw [Matrix.det_of_upperTriangular]
  · refine Finset.prod_congr rfl fun i _ => ?_
    simp [Matrix.add_apply, m.U_lower i i (lt_irrefl i)]
  · intro i j hij
    have hne : i ≠ j := (Fin.ne_of_lt hij).symm
    simp [Matrix.add_apply, m.U_lower i j (by exact fun h => absurd (lt_trans h hij) (lt_irrefl i)),
      Matrix.diagonal_apply_ne _ hne]

/-- det W() = sign(P) * product of the diagonal scale s. -/
lemma PLUMatrix.det_W {n : ℕ} (m : PLUMatrix n) :
    m.W.det = ((Equiv.Perm.sign m.σ : ℤ) : ℝ) * ∏ i, m.s i := by
  rw [PLUMatrix.W, Matrix.det_mul, Matrix.det_mul, PLUMatrix.P,
    Matrix.det_permutation, m.det_L, m.det_U_add_diag, mul_one]

/-- The sign of any permutation has absolute value 1 over the reals. -/
lemma abs_perm_sign {n : ℕ} (σ : Equiv.Perm (Fin n)) :
    |((Equiv.Perm.sign σ : ℤ) : ℝ)| = 1 := by
  rcases Int.units_eq_one_or (Equiv.Perm.sign σ) with h | h <;> rw [h] <;> norm_num

/-- |det W()| is the product of the absolute diagonal scales. -/
lemma PLUMatrix.abs_det_W {n : ℕ} (m : PLUMatrix n) :
    |m.W.det| = ∏ i, |m.s i| := by
  rw [m.det_W, abs_mul, abs_perm_sign, one_mul, Finset.abs_prod]

/-- In positive_s mode the diagonal scale is exp(log_s). -/
lemma PLUMatrix.s_pos_mode {n : ℕ} (m : PLUMatrix n)
    (h : m.positive_s = true) : m.s = fun i => Real.exp (m.log_s i) := by
  funext i
  simp [PLUMatrix.s, h]

/-- C3: PLUMatrix.logdet returns sum(log_s) in positive_s mode and
sum(log(|log_s| + eps)) otherwise; in positive_s mode it equals
log |det W()| exactly, and without positive_s it equals log |det W()|
once the eps floor is dropped (eps = 0) and no diagonal parameter is
zero. -/
theorem plu_logdet_correct :
    ∀ (n : ℕ) (m : PLUMatrix n),
      (m.positive_s = true →
        m.logdet = ∑ i, m.log_s i ∧ m.logdet = Real.log |m.W.det|) ∧
      (m.positive_s = false →
        m.logdet = ∑ i, Real.log (|m.log_s i| + m.eps) ∧
        (m.eps = 0 → (∀ i, m.log_s i ≠ 0) →
          m.logdet = Real.log |m.W.det|)) := by
  intro n m
  constructor
  · intro h
    have hsum : m.logdet = ∑ i, m.log_s i := by simp [PLUMatrix.logdet, h]
    refine ⟨hsum, ?_⟩
    rw [hsum, m.abs_det_W, m.s_pos_mode h]
    have : ∀ i ∈ Finset.univ, |Real.exp (m.log_s i)| = Real.exp (m.log_s i) :=
      fun i _ => abs_of_pos (Real.exp_pos _)
    rw [Finset.prod_congr rfl this, ← Real.exp_sum, Real.log_exp]
  · intro h
    have hb : m.positive_s = false := h
    have hsum : m.logdet = ∑ i, Real.log (|m.log_s i| + m.eps) := by
      simp [PLUMatrix.logdet, hb]
    refine ⟨hsum, fun heps hne => ?_⟩
    have hs : m.s = m.log_s := by
      funext i
      simp [PLUMatrix.s, hb]
    rw [hsum, m.abs_det_W, hs, Real.log_prod _ _ fun i _ => abs_ne_zero.mpr (hne i)]
    simp [heps]

/-- C4: for any real parameter values L() has unit diagonal and is lower
triangular, U() is strictly upper triangular, and in positive_s mode the
diagonal scale s = exp(log_s) is strictly positive everywhere, making
W() structurally invertible. -/
theorem plu_structural_invertibility :
    ∀ (n : ℕ) (m : PLUMatrix n),
      (∀ i, m.L i i = 1) ∧
      (∀ i j, i < j → m.L i j = 0) ∧
      (∀ i j, ¬ i < j → m.U i j = 0) ∧
      (m.positive_s = true →
        (∀ i, m.s i = Real.exp (m.log_s i) ∧ 0 < m.s i) ∧
        IsUnit m.W.det) := by
  intro n m
  refine ⟨m.L_diag, m.L_above, m.U_lower, fun h => ⟨fun i => ?_, ?_⟩⟩
  · have := congrFun (m.s_pos_mode h) i
    exact ⟨this, this ▸ Real.exp_pos _⟩
  · rw [isUnit_iff_ne_zero, m.det_W]
    refine mul_ne_zero ?_ ?_
    · intro hc
      have := abs_perm_sign m.σ
      rw [hc] at this
      norm_num at this
    · rw [m.s_pos_mode h]
      exact Finset.prod_ne_zero_iff.mpr fun i _ => Real.exp_ne_zero _

/-! ## Mask facts and witness helpers -/

/-- The generated mask is a 0/1 mask. -/
lemma generate_mask_binary (dim : ℕ) : isBinary (generate_mask dim) := by
  intro i
  unfold generate_mask
  by_cases h : (i : ℕ) % 2 = 0
  · right
    rw [if_pos h]
  · left
    rw [if_neg h]

/-- The complement of a 0/1 mask is a 0/1 mask. -/
lemma isBinary_one_sub {n : ℕ} {b : Fin n → ℝ} (hb : isBinary b) :
    isBinary fun i => 1 - b i := by
  intro i
  show (1 : ℝ) - b i = 0 ∨ (1 : ℝ) - b i = 1
  rcases hb i with h | h
  · right
    rw [h, sub_zero]
  · left
    rw [h, sub_self]

/-- The determinant of the witness PLU matrix is a unit. -/
lemma pluPos_det_isUnit : IsUnit pluPos.W.det := by
  rw [isUnit_iff_ne_zero, PLUMatrix.det_W]
  have h1 : Equiv.Perm.sign pluPos.σ = 1 := by
    simp [pluPos]
  rw [h1]
  have h2 : ∀ i, pluPos.s i = Real.exp 1 := fun i => by
    simp [pluPos, PLUMatrix.s]
  simp only [h2]
  simp [Real.exp_ne_zero]

/-- Witness for the round-trip theorem at concrete layers and input. -/
theorem roundtrip_inverse_forward_witness :
    isBinary nvpZero.mask ∧ nvpZero.eps = 0 ∧
    nvpZero.inverse (nvpZero.forward (oneVec 2)).1 = oneVec 2 ∧
    combinedZero.inverse (combinedZero.forward (oneVec 2)).1 = oneVec 2 ∧
    niceZero.inverse (niceZero.forward (oneVec 2)) = oneVec 2 ∧
    linPos.inverse (linPos.forward (oneVec 1)) = oneVec 1 := by
  have hb : isBinary nvpZero.mask := generate_mask_binary 2
  have hb1 : isBinary combinedZero.nvp_1.mask := generate_mask_binary 2
  have hb2 : isBinary combinedZero.nvp_2.mask :=
    isBinary_one_sub (generate_mask_binary 2)
  exact ⟨hb, rfl,
    (roundtrip_inverse_forward.1 2 nvpZero (oneVec 2) hb).2.2 rfl,
    roundtrip_inverse_forward.2.1 2 combinedZero (oneVec 2) hb1 hb2 rfl rfl,
    roundtrip_inverse_forward.2.2.1 2 niceZero (oneVec 2) (generate_mask_binary 2),
    roundtrip_inverse_forward.2.2.2 1 linPos (oneVec 1) pluPos_det_isUnit⟩

/-- Witness for the PLU log-det theorem at the two concrete matrices. -/
theorem plu_logdet_correct_witness :
    pluPos.positive_s = true ∧ pluPos.logdet = Real.log |pluPos.W.det| ∧
    pluNeg.positive_s = false ∧ pluNeg.eps = 0 ∧
    pluNeg.logdet = Real.log |pluNeg.W.det| :=
  ⟨rfl, ((plu_logdet_correct 1 pluPos).1 rfl).2, rfl, rfl,
    ((plu_logdet_correct 1 pluNeg).2 rfl).2 rfl fun _ => one_ne_zero⟩

/-- Witness for the PLU structural-invertibility theorem. -/
theorem plu_structural_invertibility_witness :
    pluPos.positive_s = true ∧ IsUnit pluPos.W.det :=
  ⟨rfl, ((plu_structural_invertibility 1 pluPos).2.2.2 rfl).2⟩

/-! ## Determinant of the coupling Jacobian -/

/-- The coupling Jacobian is block triangular under the kept/transformed
partition; its determinant is the product of the diagonal scales over
the transformed coordinates. -/
lemma det_coupling_jacobian {n : ℕ} (b s : Fin n → ℝ)
    (D : Matrix (Fin n) (Fin n) ℝ) :
    (coupling_jacobian b s D).det =
      ∏ i ∈ Finset.univ.filter (fun i => ¬ b i = 1), s i := by
  classical
  let e := Equiv.sumCompl (fun i => b i = 1)
  have hsub : (coupling_jacobian b s D).submatrix e e =
      Matrix.fromBlocks 1 0
        (Matrix.of fun (p : {i // ¬ b i = 1}) (q : {i // b i = 1}) => D p.1 q.1)
        (Matrix.diagonal fun p : {i // ¬ b i = 1} => s p.1) := by
    ext i j
    cases i with
    | inl p =>
      cases j with
      | inl q =>
        show coupling_jacobian b s D p.1 q.1 = (1 : Matrix _ _ ℝ) p q
        rw [Matrix.one_apply]
        simp only [coupling_jacobian, Matrix.of_apply, if_pos p.2]
        by_cases h : p = q
        · rw [if_pos (congrArg Subtype.val h), if_pos h]
        · rw [if_neg (fun hv => h (Subtype.ext hv)), if_neg h]
      | inr q =>
        show coupling_jacobian b s D p.1 q.1 = (0 : Matrix _ _ ℝ) p q
        have hne : p.1 ≠ q.1 := fun hv => q.2 (hv ▸ p.2)
        simp only [coupling_jacobian, Matrix.of_apply, if_pos p.2, if_neg hne,
          Matrix.zero_apply]
    | inr p =>
      cases j with
      | inl q =>
        show coupling_jacobian b s D p.1 q.1 = D p.1 q.1
        have hne : p.1 ≠ q.1 := fun hv => p.2 (hv ▸ q.2)
        simp only [coupling_jacobian, Matrix.of_apply, if_neg p.2, if_neg hne,
          if_pos q.2]
      | inr q =>
        show coupling_jacobian b s D p.1 q.1 =
          Matrix.diagonal (fun p : {i // ¬ b i = 1} => s p.1) p q
        by_cases h : p = q
        · rw [h, Matrix.diagonal_apply_eq]
          simp only [coupling_jacobian, Matrix.of_apply, if_neg q.2, if_pos rfl,
            if_true]
        · rw [Matrix.diagonal_apply_ne _ h]
          have hv : p.1 ≠ q.1 := fun hv => h (Subtype.ext hv)
          simp only [coupling_jacobian, Matrix.of_apply, if_neg p.2, if_neg hv,
            if_neg q.2]
  have hdet := Matrix.det_submatrix_equiv_self e (coupling_jacobian b s D)
  rw [← hdet, hsub, Matrix.det_fromBlocks_zero₁₂, Matrix.det_one, one_mul,
    Matrix.det_diagonal]
  rw [← Finset.prod_subtype (Finset.univ.filter fun i => ¬ b i = 1)
    (fun x => by simp) s]

/-- With a 0/1 mask, the per-sample log-det returned by forward is the
sum of log_s over the transformed coordinates. -/
lemma real_nvp_element.logdet_filter {n : ℕ} (e : real_nvp_element n)
    (x : Fin n → ℝ) (hb : isBinary e.mask) :
    (e.forward x).2 =
      ∑ i ∈ Finset.univ.filter (fun i => ¬ e.mask i = 1),
        (e.get_s fun j => e.mask j * x j).2 i := by
  rw [e.forward_snd, Finset.sum_filter]
  refine Finset.sum_congr rfl fun i _ => ?_
  rcases hb i with h | h
  · rw [if_pos (by rw [h]; norm_num), h]
    ring
  · rw [if_neg (by rw [h]; simp), h]
    ring

/-- C2: forward of real_nvp_element returns the affine coupling output
b*x + (1-b)*(x*s + t) with s = exp(log_s) computed from the masked
input (soft-clamped when clip is set), and its per-sample log_det_J,
the sum of (1-b)*log_s, equals the log-absolute-determinant of the
analytic block-triangular Jacobian for every choice of the cross
derivative block D. -/
theorem real_nvp_forward_correct :
    ∀ (n : ℕ) (e : real_nvp_element n) (x : Fin n → ℝ)
      (D : Matrix (Fin n) (Fin n) ℝ), isBinary e.mask →
      ((e.forward x).1 = fun i =>
        e.mask i * x i + (1 - e.mask i) *
          (x i * (e.get_s fun j => e.mask j * x j).1 i +
            e.f_t (fun j => e.mask j * x j) i)) ∧
      (∀ i, (e.get_s fun j => e.mask j * x j).1 i =
        Real.exp ((e.get_s fun j => e.mask j * x j).2 i)) ∧
      (e.clip = none →
        (e.get_s fun j => e.mask j * x j).2 =
          e.f_log_s fun j => e.mask j * (e.mask j * x j)) ∧
      (∀ c, e.clip = some c →
        (e.get_s fun j => e.mask j * x j).2 = fun i =>
          c * Real.tanh
            (e.f_log_s (fun j => e.mask j * (e.mask j * x j)) i / c)) ∧
      ((e.forward x).2 =
        ∑ i, (e.get_s fun j => e.mask j * x j).2 i * (1 - e.mask i)) ∧
      ((e.forward x).2 =
        Real.log
          |(coupling_jacobian e.mask (e.get_s fun j => e.mask j * x j).1 D).det|) := by
  intro n e x D hb
  refine ⟨funext fun i => e.forward_apply x i, fun i => e.get_s_fst _ i,
    ?_, ?_, e.forward_snd x, ?_⟩
  · intro hclip
    simp only [real_nvp_element.get_s, hclip]
  · intro c hclip
    simp only [real_nvp_element.get_s, hclip]
  · rw [det_coupling_jacobian, e.logdet_filter x hb]
    have habs : ∀ i ∈ Finset.univ.filter (fun i => ¬ e.mask i = 1),
        |(e.get_s fun j => e.mask j * x j).1 i| =
          (e.get_s fun j => e.mask j * x j).1 i :=
      fun i _ => abs_of_pos (e.get_s_pos _ i)
    rw [Finset.abs_prod, Finset.prod_congr rfl habs]
    rw [Real.log_prod _ _ fun i _ => ne_of_gt (e.get_s_pos _ i)]
    refine (Finset.sum_congr rfl fun i _ => ?_).symm
    rw [e.get_s_fst, Real.log_exp]

/-- Witness for the forward-correctness theorem at a concrete layer. -/
theorem real_nvp_forward_correct_witness :
    isBinary nvpDefault.mask ∧
    (nvpDefault.forward (oneVec 2)).2 =
      Real.log
        |(coupling_jacobian nvpDefault.mask
          (nvpDefault.get_s fun j => nvpDefault.mask j * oneVec 2 j).1 0).det| :=
  ⟨generate_mask_binary 2,
    (real_nvp_forward_correct 2 nvpDefault (oneVec 2) 0
      (generate_mask_binary 2)).2.2.2.2.2⟩

/-! ## The iResNet stochastic log-det estimator -/

/-- After k inner iterations the cotangent of a probe is the k-fold
vector-Jacobian product of the initial noise vector. -/
lemma logdet_probe_fst {n : ℕ} (J : (Fin n → ℝ) → Fin n → ℝ)
    (v : Fin n → ℝ) (m : ℕ) : (logdet_probe J v m).1 = J^[m] v := by
  induction m with
  | zero => rfl
  | succ m ih =>
    show J (logdet_probe J v m).1 = J^[m + 1] v
    rw [ih, Function.iterate_succ_apply']

/-- The accumulator of a probe is the truncated alternating power
series, summed over the 1-based iteration index. -/
lemma logdet_probe_snd {n : ℕ} (J : (Fin n → ℝ) → Fin n → ℝ)
    (v : Fin n → ℝ) (m : ℕ) :
    (logdet_probe J v m).2 =
      ∑ k ∈ Finset.Icc 1 m,
        (-1 : ℝ) ^ (k + 1) * (∑ i, (J^[k] v) i * v i) / k := by
  induction m with
  | zero => simp [logdet_probe]
  | succ m ih =>
    rw [Finset.sum_Icc_succ_top (by omega)]
    show (logdet_probe J v m).2 +
        (-1 : ℝ) ^ (m + 1 + 1) * (∑ i, (J (logdet_probe J v m).1) i * v i) / (m + 1) = _
    rw [ih, logdet_probe_fst,
      show J (J^[m] v) = J^[m + 1] v from (Function.iterate_succ_apply' J m v).symm]
    push_cast
    ring

/-- C5: iResNet.logdet computes, for each of the num_iter probe vectors
v, the sum over k = 1 .. num_n - 1 of (-1)^(k+1)/k times the inner
product of v with its k-fold vector-Jacobian product, and returns the
average of these probe estimates. -/
theorem iresnet_logdet_formula :
    ∀ (n num_iter num_n : ℕ) (J : (Fin n → ℝ) → Fin n → ℝ)
      (v : Fin num_iter → Fin n → ℝ),
      iResNet.logdet num_iter num_n J v =
        (∑ p : Fin num_iter, ∑ k ∈ Finset.Icc 1 (num_n - 1),
          (-1 : ℝ) ^ (k + 1) * (∑ i, (J^[k] (v p)) i * v p i) / k) /
          num_iter := by
  intro n num_iter num_n J v
  unfold iResNet.logdet
  congr 1
  exact Finset.sum_congr rfl fun p _ => logdet_probe_snd J (v p) (num_n - 1)

/-! ## Mask complementarity -/

/-- C6: the default mask is 1 at even indices and 0 at odd indices, its
complement pair sums to all-ones with pointwise product all-zeros, and
combined_real_nvp always hands its two internal elements exactly the
pair (mask, 1 - mask), the mask defaulting to generate_mask. -/
theorem mask_complementarity :
    ∀ dim : ℕ,
      (∀ i : Fin dim, (i : ℕ) % 2 = 0 → generate_mask dim i = 1) ∧
      (∀ i : Fin dim, (i : ℕ) % 2 = 1 → generate_mask dim i = 0) ∧
      (∀ i : Fin dim, generate_mask dim i + (1 - generate_mask dim i) = 1) ∧
      (∀ i : Fin dim, generate_mask dim i * (1 - generate_mask dim i) = 0) ∧
      (∀ (f_log_s f_t : (Fin dim → ℝ) → Fin dim → ℝ)
        (mask : Option (Fin dim → ℝ)) (clip : Option ℝ),
        (combined_real_nvp.mk' dim f_log_s f_t mask clip).nvp_1.mask =
          (combined_real_nvp.mk' dim f_log_s f_t mask clip).mask ∧
        ((combined_real_nvp.mk' dim f_log_s f_t mask clip).nvp_2.mask =
          fun i => 1 - (combined_real_nvp.mk' dim f_log_s f_t mask clip).mask i) ∧
        (mask = none →
          (combined_real_nvp.mk' dim f_log_s f_t mask clip).mask =
            generate_mask dim)) := by
  intro dim
  refine ⟨?_, ?_, fun i => by ring, ?_, ?_⟩
  · intro i h
    unfold generate_mask
    rw [if_pos h]
  · intro i h
    unfold generate_mask
    rw [if_neg (by omega)]
  · intro i
    rcases generate_mask_binary dim i with h | h <;> rw [h] <;> ring
  · intro f_log_s f_t mask clip
    refine ⟨rfl, rfl, fun h => ?_⟩
    rw [h]
    rfl

/-- Witness for the mask-complementarity theorem at dimension 2. -/
theorem mask_complementarity_witness :
    generate_mask 2 0 = 1 ∧ generate_mask 2 1 = 0 ∧
    combinedDefault.nvp_1.mask = combinedDefault.mask ∧
    combinedDefault.mask = generate_mask 2 :=
  ⟨(mask_complementarity 2).1 0 (by decide),
    (mask_complementarity 2).2.1 1 (by decide),
    ((mask_complementarity 2).2.2.2.2 (zeroNet 2) (zeroNet 2) none none).1,
    ((mask_complementarity 2).2.2.2.2 (zeroNet 2) (zeroNet 2) none none).2.2 rfl⟩

/-! ## Distribution log-probability: rank dispatch and chunk sums -/

/-- Sum of a contiguous slice expressed through indexed access. -/
lemma sum_take_drop (l : List ℝ) (a m : ℕ) (h : a + m ≤ l.length) :
    ((l.drop a).take m).sum = ∑ k ∈ Finset.range m, l.getD (a + k) 0 := by
  induction m generalizing a with
  | zero => simp
  | succ m ih =>
    have ha : a < l.length := by omega
    rw [List.drop_eq_getElem_cons ha, List.take_succ_cons, List.sum_cons,
      ih (a + 1) (by omega), Finset.sum_range_succ' (fun k => l.getD (a + k) 0) m,
      ← List.getD_eq_getElem l 0 ha]
    have : ∀ k, a + 1 + k = a + (k + 1) := by omega
    simp only [this, add_zero]
    ring

/-- Entry b of the chunked per-sample sums, as a sum over the sample's
flat indices. -/
lemma chunkSums_getD (l : List ℝ) (batch size b : ℕ) (hb : b < batch)
    (hlen : batch * size ≤ l.length) :
    (chunkSums l batch size).getD b 0 =
      ∑ k ∈ Finset.range size, l.getD (b * size + k) 0 := by
  have hlt : b < ((List.range batch).map
      fun b => ((l.drop (b * size)).take size).sum).length := by
    simpa using hb
  rw [chunkSums, List.getD_eq_getElem _ 0 hlt, List.getElem_map,
    List.getElem_range]
  exact sum_take_drop l (b * size) size
    (le_trans (by nlinarith [Nat.succ_le_of_lt hb]) hlen)

/-- The chunked sums have one entry per batch element. -/
lemma chunkSums_length (l : List ℝ) (batch size : ℕ) :
    (chunkSums l batch size).length = batch := by
  simp [chunkSums]

/-- For a tensor of rank 2, 3 or 4 the flat data length equals batch
times per-sample size. -/
lemma shape_prod_split (t : Tensor) (h : t.shape.length = 2 ∨
    t.shape.length = 3 ∨ t.shape.length = 4) :
    t.shape.prod = t.shape.headD 0 * t.shape.tail.prod := by
  rcases t with ⟨shape, data⟩
  cases shape with
  | nil => simp at h
  | cons a tl => simp

/-- On accepted ranks NormalDistribution.logp returns the chunked sums
of the pointwise log-density. -/
lemma normal_logp_ok_form (t : Tensor) (h : t.shape.length = 2 ∨
    t.shape.length = 3 ∨ t.shape.length = 4) :
    NormalDistribution.logp t =
      Except.ok (chunkSums (t.data.map fun v => -(v ^ 2))
        (t.shape.headD 0) t.shape.tail.prod) := by
  unfold NormalDistribution.logp
  rcases h with h | h | h <;> simp [h]

/-- On accepted ranks LaplaceDistribution.logp returns the chunked sums
of the pointwise Laplace log-density. -/
lemma laplace_logp_ok_form (d : LaplaceDistribution) (t : Tensor)
    (h : t.shape.length = 2 ∨ t.shape.length = 3 ∨ t.shape.length = 4) :
    d.logp t =
      Except.ok (chunkSums
        (t.data.map fun v => -Real.log (2 * d.beta) - |v - d.mu| / d.beta)
        (t.shape.headD 0) t.shape.tail.prod) := by
  unfold LaplaceDistribution.logp
  rcases h with h | h | h <;> simp [h]

/-- Entrywise description of the accepted output of either logp, for a
generic pointwise log-density f. -/
lemma logp_chunk_entry (f : ℝ → ℝ) (t : Tensor)
    (hlen : t.data.length = t.shape.prod)
    (h : t.shape.length = 2 ∨ t.shape.length = 3 ∨ t.shape.length = 4)
    (b : ℕ) (hb : b < t.shape.headD 0) :
    (chunkSums (t.data.map f) (t.shape.headD 0) t.shape.tail.prod).getD b 0 =
      ∑ k ∈ Finset.range t.shape.tail.prod,
        f (t.data.getD (b * t.shape.tail.prod + k) 0) := by
  have hsplit := shape_prod_split t h
  have hmap : t.shape.headD 0 * t.shape.tail.prod ≤ (t.data.map f).length := by
    rw [List.length_map, hlen, hsplit]
  rw [chunkSums_getD _ _ _ _ hb hmap]
  refine Finset.sum_congr rfl fun k hk => ?_
  have hk' : k < t.shape.tail.prod := Finset.mem_range.mp hk
  have hidx : b * t.shape.tail.prod + k < t.data.length := by
    rw [hlen, hsplit]
    nlinarith [Nat.succ_le_of_lt hb]
  have hidx' : b * t.shape.tail.prod + k < (t.data.map f).length := by
    simpa using hidx
  rw [List.getD_eq_getElem _ 0 hidx', List.getElem_map,
    List.getD_eq_getElem _ 0 hidx]

/-- C7: both distributions' logp fail exactly when the input rank lies
outside {2, 3, 4} (in particular on an unbatched rank-1 input), and on
accepted ranks return a per-sample list of length batch whose entry b is
the sum of the pointwise log-densities over all non-batch positions of
sample b. -/
theorem distribution_logp_shape :
    ∀ (t : Tensor) (d : LaplaceDistribution),
      ((NormalDistribution.logp t).isOk = true ↔
        (t.shape.length = 2 ∨ t.shape.length = 3 ∨ t.shape.length = 4)) ∧
      ((d.logp t).isOk = true ↔
        (t.shape.length = 2 ∨ t.shape.length = 3 ∨ t.shape.length = 4)) ∧
      ((t.shape.length = 2 ∨ t.shape.length = 3 ∨ t.shape.length = 4) →
        t.data.length = t.shape.prod →
        (∃ l, NormalDistribution.logp t = Except.ok l ∧
          l.length = t.shape.headD 0 ∧
          ∀ b < t.shape.headD 0,
            l.getD b 0 = ∑ k ∈ Finset.range t.shape.tail.prod,
              -((t.data.getD (b * t.shape.tail.prod + k) 0) ^ 2)) ∧
        (∃ l, d.logp t = Except.ok l ∧
          l.length = t.shape.headD 0 ∧
          ∀ b < t.shape.headD 0,
            l.getD b 0 = ∑ k ∈ Finset.range t.shape.tail.prod,
              (-Real.log (2 * d.beta) -
                |t.data.getD (b * t.shape.tail.prod + k) 0 - d.mu| / d.beta))) := by
  intro t d
  refine ⟨?_, ?_, ?_⟩
  · unfold NormalDistribution.logp
    split_ifs with h1 h2 h3 h4 <;> simp [Except.isOk, Except.toBool] <;> omega
  · unfold LaplaceDistribution.logp
    split_ifs with h1 h2 h3 h4 <;> simp [Except.isOk, Except.toBool] <;> omega
  · intro h hlen
    constructor
    · exact ⟨_, normal_logp_ok_form t h, chunkSums_length _ _ _,
        fun b hb => logp_chunk_entry (fun v => -(v ^ 2)) t hlen h b hb⟩
    · exact ⟨_, laplace_logp_ok_form d t h, chunkSums_length _ _ _,
        fun b hb => logp_chunk_entry
          (fun v => -Real.log (2 * d.beta) - |v - d.mu| / d.beta) t hlen h b hb⟩

/-- Witness for the distribution logp theorem at concrete tensors. -/
theorem distribution_logp_shape_witness :
    (NormalDistribution.logp tens22).isOk = true ∧
    (lap01.logp tens22).isOk = true ∧
    (NormalDistribution.logp tens1).isOk = false := by
  refine ⟨?_, ?_, ?_⟩
  · obtain ⟨l, hl, -, -⟩ :=
      ((distribution_logp_shape tens22 lap01).2.2 (Or.inl rfl) rfl).1
    rw [hl]
    rfl
  · obtain ⟨l, hl, -, -⟩ :=
      ((distribution_logp_shape tens22 lap01).2.2 (Or.inl rfl) rfl).2
    rw [hl]
    rfl
  · have h := (distribution_logp_shape tens1 lap01).1
    rcases hok : (NormalDistribution.logp tens1).isOk with _ | _
    · rfl
    · have := h.mp hok
      simp [tens1] at this

/-! ## Zero-initialized maps: evaluation lemmas -/

/-- getD on a replicate list. -/
lemma getD_replicate {α : Type} (k j : ℕ) (a d : α) :
    (List.replicate k a).getD j d = if j < k then a else d := by
  rcases Nat.lt_or_ge j k with h | h
  · rw [List.getD_eq_getElem _ _ (by simpa using h), List.getElem_replicate,
      if_pos h]
  · rw [List.getD_eq_default _ _ (by simpa using h), if_neg (by omega)]

/-- Entries of a zero weight matrix are zero under any double getD. -/
lemma getD_rep2 (z y j i : ℕ) :
    ((List.replicate z (List.replicate y (0 : ℝ))).getD j []).getD i 0 = 0 := by
  rw [getD_replicate]
  split_ifs
  · rw [getD_replicate]
    split_ifs <;> rfl
  · rfl

/-- Entries of a zero 1-d conv kernel are zero under any triple getD. -/
lemma getD_rep3 (z y j i k : ℕ) :
    (((List.replicate z (List.replicate y (List.replicate 3 (0 : ℝ)))).getD j
      []).getD i []).getD k 0 = 0 := by
  rw [getD_replicate]
  split_ifs
  · rw [getD_replicate]
    split_ifs
    · rw [getD_replicate]
      split_ifs <;> rfl
    · rfl
  · rfl

/-- Entries of a zero 2-d conv kernel are zero under any quadruple getD. -/
lemma getD_rep4 (z y o i j k : ℕ) :
    ((((List.replicate z (List.replicate y (List.replicate 3
      (List.replicate 3 (0 : ℝ))))).getD o []).getD i []).getD j []).getD k 0 = 0 := by
  rw [getD_replicate]
  split_ifs
  · rw [getD_replicate]
    split_ifs
    · rw [getD_replicate]
      split_ifs
      · rw [getD_replicate]
        split_ifs <;> rfl
      · rfl
    · rfl
  · rfl

/-- headD of a nonempty replicate list. -/
lemma headD_replicate_pos {α : Type} (k : ℕ) (hk : 0 < k) (a d : α) :
    (List.replicate k a).headD d = a := by
  cases k with
  | zero => omega
  | succ k => rfl

/-- A zero-initialized linear map sends every input to zero. -/
lemma linearApply_zero (z y : ℕ) (x : List ℝ) :
    linearApply (List.replicate z (List.replicate y 0))
      (List.replicate z 0) x = List.replicate z 0 := by
  unfold linearApply
  rw [List.length_replicate]
  refine List.eq_replicate_iff.mpr ⟨by rw [List.length_map, List.length_range],
    fun b hb => ?_⟩
  obtain ⟨j, hj, rfl⟩ := List.mem_map.mp hb
  have hbias : (List.replicate z (0 : ℝ)).getD j 0 = 0 := by
    rw [getD_replicate]
    split_ifs <;> rfl
  rw [hbias, add_zero]
  exact Finset.sum_eq_zero fun i _ => by rw [getD_rep2, zero_mul]

/-- A zero-initialized 1-d conv sends every input to zero rows. -/
lemma conv1dApply_zero (z y : ℕ) (x : List (List ℝ)) :
    conv1dApply (List.replicate z (List.replicate y (List.replicate 3 0)))
      (List.replicate z 0) x =
      List.replicate z (List.replicate (x.headD []).length 0) := by
  unfold conv1dApply
  dsimp only
  rw [List.length_replicate]
  refine List.eq_replicate_iff.mpr ⟨by rw [List.length_map, List.length_range],
    fun row hrow => ?_⟩
  obtain ⟨o, ho, rfl⟩ := List.mem_map.mp hrow
  refine List.eq_replicate_iff.mpr ⟨by rw [List.length_map, List.length_range],
    fun b hb => ?_⟩
  obtain ⟨p, hp, rfl⟩ := List.mem_map.mp hb
  have hbias : (List.replicate z (0 : ℝ)).getD o 0 = 0 := by
    rw [getD_replicate]
    split_ifs <;> rfl
  rw [hbias, zero_add]
  exact Finset.sum_eq_zero fun i _ =>
    Finset.sum_eq_zero fun j _ => by rw [getD_rep3, zero_mul]

/-- A zero-initialized 2-d conv sends every input to zero planes. -/
lemma conv2dApply_zero (z y : ℕ) (x : List (List (List ℝ))) :
    conv2dApply (List.replicate z (List.replicate y (List.replicate 3
        (List.replicate 3 0))))
      (List.replicate z 0) x =
      List.replicate z (List.replicate (x.headD []).length
        (List.replicate ((x.headD []).headD []).length 0)) := by
  unfold conv2dApply
  dsimp only
  rw [List.length_replicate]
  refine List.eq_replicate_iff.mpr ⟨by rw [List.length_map, List.length_range],
    fun plane hplane => ?_⟩
  obtain ⟨o, ho, rfl⟩ := List.mem_map.mp hplane
  refine List.eq_replicate_iff.mpr ⟨by rw [List.length_map, List.length_range],
    fun row hrow => ?_⟩
  obtain ⟨p, hp, rfl⟩ := List.mem_map.mp hrow
  refine List.eq_replicate_iff.mpr ⟨by rw [List.length_map, List.length_range],
    fun b hb => ?_⟩
  obtain ⟨q, hq, rfl⟩ := List.mem_map.mp hb
  have hbias : (List.replicate z (0 : ℝ)).getD o 0 = 0 := by
    rw [getD_replicate]
    split_ifs <;> rfl
  rw [hbias, zero_add]
  exact Finset.sum_eq_zero fun i _ =>
    Finset.sum_eq_zero fun j _ =>
      Finset.sum_eq_zero fun k _ => by rw [getD_rep4, zero_mul]

/-- The fresh zero-initialized vector estimator on an all-zero batch:
mu = 0, var = eps + 1 elementwise, log_det = -(count * log(eps + 1)). -/
lemma MuVarVector.forward_zero_vec (fi fo batch : ℕ) :
    (MuVarVector.mk' fi fo).forward
      (List.replicate batch (List.replicate fo 0)) =
      (List.replicate batch (List.replicate (fi - fo) 0),
       List.replicate batch (List.replicate (fi - fo) ((1e-8 : ℝ) + 1)),
       List.replicate batch
         (-(((fi - fo : ℕ) : ℝ) * Real.log ((1e-8 : ℝ) + 1)))) := by
  unfold MuVarVector.forward MuVarVector.mk'
  simp only [List.map_replicate, linearApply_zero, Real.exp_zero,
    List.sum_replicate, nsmul_eq_mul]

/-- The fresh zero-initialized 1-d estimator on an all-zero batch. -/
lemma MuVar1d.forward_zero_1d (fi fo batch L : ℕ) (hfo : 0 < fo) :
    (MuVar1d.mk' fi fo).forward
      (List.replicate batch (List.replicate fo (List.replicate L 0))) =
      (List.replicate batch (List.replicate (fi - fo) (List.replicate L 0)),
       List.replicate batch
         (List.replicate (fi - fo) (List.replicate L ((1e-8 : ℝ) + 1))),
       List.replicate batch
         (-(((fi - fo : ℕ) : ℝ) * ((L : ℝ) * Real.log ((1e-8 : ℝ) + 1))))) := by
  unfold MuVar1d.forward MuVar1d.mk'
  simp only [List.map_replicate, conv1dApply_zero,
    headD_replicate_pos fo hfo, List.length_replicate, Real.exp_zero,
    List.sum_replicate, nsmul_eq_mul]

/-- The fresh zero-initialized 2-d estimator on an all-zero batch. -/
lemma MuVar2d.forward_zero_2d (fi fo batch H Wd : ℕ) (hfo : 0 < fo)
    (hH : 0 < H) :
    (MuVar2d.mk' fi fo).forward
      (List.replicate batch (List.replicate fo (List.replicate H
        (List.replicate Wd 0)))) =
      (List.replicate batch (List.replicate (fi - fo) (List.replicate H
         (List.replicate Wd 0))),
       List.replicate batch (List.replicate (fi - fo) (List.replicate H
         (List.replicate Wd ((1e-8 : ℝ) + 1)))),
       List.replicate batch
         (-(((fi - fo : ℕ) : ℝ) * ((H : ℝ) *
           ((Wd : ℝ) * Real.log ((1e-8 : ℝ) + 1)))))) := by
  unfold MuVar2d.forward MuVar2d.mk'
  simp only [List.map_replicate, conv2dApply_zero,
    headD_replicate_pos fo hfo, headD_replicate_pos H hH,
    List.length_replicate, Real.exp_zero, List.sum_replicate, nsmul_eq_mul]

/-- C8: MuVar constructs its rank-specific sub-estimator exactly once on
the first forward call (vector, 1-d or 2-d according to the input rank),
an already-initialized module is never re-constructed by any later call,
the constructed maps are zero-initialized, and the first forward on an
all-zero input returns mu = 0 and var = eps + 1 elementwise with
log_det = -sum(log var) = -(count * log(eps + 1)) per sample. -/
theorem muvar_lazy_init :
    ∀ fi fo : ℕ,
      (∀ y, ((MuVar.mk' fi fo).forward (T.t2 y)).1 =
        { feature_in := fi, feature_out := fo, initialized := true,
          mu_var := some (MuVarEst.vec (MuVarVector.mk' fi fo)) }) ∧
      (∀ y, ((MuVar.mk' fi fo).forward (T.t3 y)).1 =
        { feature_in := fi, feature_out := fo, initialized := true,
          mu_var := some (MuVarEst.oneD (MuVar1d.mk' fi fo)) }) ∧
      (∀ y, ((MuVar.mk' fi fo).forward (T.t4 y)).1 =
        { feature_in := fi, feature_out := fo, initialized := true,
          mu_var := some (MuVarEst.twoD (MuVar2d.mk' fi fo)) }) ∧
      (∀ (m : MuVar) (y : T), m.initialized = true → (m.forward y).1 = m) ∧
      ((MuVarVector.mk' fi fo).linear_mu_weight =
          List.replicate (fi - fo) (List.replicate fo 0) ∧
        (MuVarVector.mk' fi fo).linear_mu_bias = List.replicate (fi - fo) 0 ∧
        (MuVarVector.mk' fi fo).linear_log_var_weight =
          List.replicate (fi - fo) (List.replicate fo 0) ∧
        (MuVarVector.mk' fi fo).linear_log_var_bias =
          List.replicate (fi - fo) 0) ∧
      (∀ batch, ((MuVar.mk' fi fo).forward
          (T.t2 (List.replicate batch (List.replicate fo 0)))).2 =
        Except.ok
          (T.t2 (List.replicate batch (List.replicate (fi - fo) 0)),
           T.t2 (List.replicate batch
             (List.replicate (fi - fo) ((1e-8 : ℝ) + 1))),
           List.replicate batch
             (-(((fi - fo : ℕ) : ℝ) * Real.log ((1e-8 : ℝ) + 1))))) ∧
      (∀ batch L, 0 < fo → ((MuVar.mk' fi fo).forward
          (T.t3 (List.replicate batch (List.replicate fo
            (List.replicate L 0))))).2 =
        Except.ok
          (T.t3 (List.replicate batch (List.replicate (fi - fo)
             (List.replicate L 0))),
           T.t3 (List.replicate batch (List.replicate (fi - fo)
             (List.replicate L ((1e-8 : ℝ) + 1)))),
           List.replicate batch
             (-(((fi - fo : ℕ) : ℝ) *
               ((L : ℝ) * Real.log ((1e-8 : ℝ) + 1)))))) ∧
      (∀ batch H Wd, 0 < fo → 0 < H → ((MuVar.mk' fi fo).forward
          (T.t4 (List.replicate batch (List.replicate fo
            (List.replicate H (List.replicate Wd 0)))))).2 =
        Except.ok
          (T.t4 (List.replicate batch (List.replicate (fi - fo)
             (List.replicate H (List.replicate Wd 0)))),
           T.t4 (List.replicate batch (List.replicate (fi - fo)
             (List.replicate H (List.replicate Wd ((1e-8 : ℝ) + 1))))),
           List.replicate batch
             (-(((fi - fo : ℕ) : ℝ) * ((H : ℝ) *
               ((Wd : ℝ) * Real.log ((1e-8 : ℝ) + 1))))))) := by
  intro fi fo
  refine ⟨fun y => rfl, fun y => rfl, fun y => rfl, ?_, ⟨rfl, rfl, rfl, rfl⟩,
    ?_, ?_, ?_⟩
  · intro m y h
    unfold MuVar.forward
    rw [h]
    rfl
  · intro batch
    show Except.ok
        (T.t2 ((MuVarVector.mk' fi fo).forward
          (List.replicate batch (List.replicate fo 0))).1,
         T.t2 ((MuVarVector.mk' fi fo).forward
           (List.replicate batch (List.replicate fo 0))).2.1,
         ((MuVarVector.mk' fi fo).forward
           (List.replicate batch (List.replicate fo 0))).2.2) = _
    rw [MuVarVector.forward_zero_vec]
  · intro batch L hfo
    show Except.ok
        (T.t3 ((MuVar1d.mk' fi fo).forward
          (List.replicate batch (List.replicate fo (List.replicate L 0)))).1,
         T.t3 ((MuVar1d.mk' fi fo).forward
           (List.replicate batch (List.replicate fo (List.replicate L 0)))).2.1,
         ((MuVar1d.mk' fi fo).forward
           (List.replicate batch (List.replicate fo (List.replicate L 0)))).2.2) = _
    rw [MuVar1d.forward_zero_1d fi fo batch L hfo]
  · intro batch H Wd hfo hH
    show Except.ok
        (T.t4 ((MuVar2d.mk' fi fo).forward
          (List.replicate batch (List.replicate fo (List.replicate H
            (List.replicate Wd 0))))).1,
         T.t4 ((MuVar2d.mk' fi fo).forward
           (List.replicate batch (List.replicate fo (List.replicate H
             (List.replicate Wd 0))))).2.1,
         ((MuVar2d.mk' fi fo).forward
           (List.replicate batch (List.replicate fo (List.replicate H
             (List.replicate Wd 0))))).2.2) = _
    rw [MuVar2d.forward_zero_2d fi fo batch H Wd hfo hH]

/-- Witness for the lazy-initialization theorem at feature sizes (2, 1)
with concrete inputs. -/
theorem muvar_lazy_init_witness :
    ((MuVar.mk' 2 1).forward (T.t2 [[0]])).1 = muVarInit21 ∧
    (muVarInit21.forward (T.t1 [0])).1 = muVarInit21 ∧
    ((MuVar.mk' 2 1).forward
        (T.t2 (List.replicate 1 (List.replicate 1 0)))).2 =
      Except.ok
        (T.t2 (List.replicate 1 (List.replicate (2 - 1) 0)),
         T.t2 (List.replicate 1 (List.replicate (2 - 1) ((1e-8 : ℝ) + 1))),
         List.replicate 1
           (-(((2 - 1 : ℕ) : ℝ) * Real.log ((1e-8 : ℝ) + 1)))) ∧
    ((MuVar.mk' 2 1).forward
        (T.t3 (List.replicate 1 (List.replicate 1 (List.replicate 3 0))))).2 =
      Except.ok
        (T.t3 (List.replicate 1 (List.replicate (2 - 1) (List.replicate 3 0))),
         T.t3 (List.replicate 1 (List.replicate (2 - 1)
           (List.replicate 3 ((1e-8 : ℝ) + 1)))),
         List.replicate 1
           (-(((2 - 1 : ℕ) : ℝ) * ((3 : ℝ) * Real.log ((1e-8 : ℝ) + 1))))) :=
  ⟨(muvar_lazy_init 2 1).1 [[0]],
    (muvar_lazy_init 2 1).2.2.2.1 muVarInit21 (T.t1 [0]) rfl,
    (muvar_lazy_init 2 1).2.2.2.2.2.1 1,
    (muvar_lazy_init 2 1).2.2.2.2.2.2.1 1 3 Nat.one_pos⟩

/-- An initialized MuVar with no bound sub-estimator always raises
AttributeError and leaves its state unchanged. -/
lemma MuVar.forward_initialized_none (m : MuVar) (h : m.initialized = true)
    (hmv : m.mu_var = none) (y : T) :
    m.forward y = (m, Except.error "AttributeError: mu_var is not bound") := by
  unfold MuVar.forward
  rw [h, if_pos rfl, hmv]

/-- An uninitialized MuVar runs _initialize and then applies whatever it
bound. -/
lemma MuVar.forward_not_initialized (m : MuVar) (h : m.initialized = false)
    (y : T) :
    m.forward y =
      (match m._initialize y with
       | (m', some err) => (m', Except.error err)
       | (m', none) =>
           (m', match m'.mu_var with
                | none => Except.error "AttributeError: mu_var is not bound"
                | some e => e.apply y)) := by
  unfold MuVar.forward
  rw [h, if_neg Bool.false_ne_true]

/-- Counterexample to C9 as stated: a first call with a rank-1 input
(rank outside {2,3,4}) raises inside _initialize BEFORE the initialized
flag is set (at num_features = shape[0]), so the module state is
unchanged, the flag stays false, and a subsequent rank-2 call
initializes successfully — the module is not permanently unusable. -/
theorem muvar_init_flag_counterexample :
    ((MuVar.mk' 2 1).forward (T.t1 [0])).1 = MuVar.mk' 2 1 ∧
    ((MuVar.mk' 2 1).forward (T.t1 [0])).1.initialized = false ∧
    ((MuVar.mk' 2 1).forward (T.t1 [0])).2 =
      Except.error "IndexError: tuple index out of range" ∧
    (((MuVar.mk' 2 1).forward (T.t1 [0])).1.forward (T.t2 [[0]])).2.isOk =
      true :=
  ⟨rfl, rfl, rfl, rfl⟩

/-- C9 amended: only a first input of rank 5 or more sets the
initialized flag before the rank dispatch without binding a
sub-estimator, after which that call and every subsequent call fail with
AttributeError and the state never changes again; for rank 0 or 1 the
exception is raised before the flag is set, so the module stays
uninitialized and retries initialization on the next call. -/
theorem muvar_init_flag_amended :
    ∀ m : MuVar, m.initialized = false → m.mu_var = none →
      (∀ r : ℕ,
        (m.forward (T.higher r)).1 = { m with initialized := true } ∧
        (m.forward (T.higher r)).2 =
          Except.error "AttributeError: mu_var is not bound" ∧
        (∀ y' : T,
          (({ m with initialized := true } : MuVar).forward y').1 =
            { m with initialized := true } ∧
          (({ m with initialized := true } : MuVar).forward y').2 =
            Except.error "AttributeError: mu_var is not bound")) ∧
      (∀ x0 : ℝ, (m.forward (T.t0 x0)).1 = m ∧
        (m.forward (T.t0 x0)).2 =
          Except.error "ValueError: not enough values to unpack") ∧
      (∀ x1 : List ℝ, (m.forward (T.t1 x1)).1 = m ∧
        (m.forward (T.t1 x1)).2 =
          Except.error "IndexError: tuple index out of range") := by
  intro m hinit hmv
  have hupd : ({ m with initialized := true } : MuVar).mu_var = none := hmv
  have hforward_higher : ∀ r : ℕ, m.forward (T.higher r) =
      ({ m with initialized := true },
        Except.error "AttributeError: mu_var is not bound") := by
    intro r
    rw [MuVar.forward_not_initialized m hinit]
    show ({ m with initialized := true },
      match ({ m with initialized := true } : MuVar).mu_var with
      | none => Except.error "AttributeError: mu_var is not bound"
      | some e => e.apply (T.higher r)) = _
    rw [hupd]
  refine ⟨fun r => ⟨?_, ?_, fun y' => ⟨?_, ?_⟩⟩, ?_, ?_⟩
  · rw [hforward_higher r]
  · rw [hforward_higher r]
  · rw [MuVar.forward_initialized_none _ rfl hupd y']
  · rw [MuVar.forward_initialized_none _ rfl hupd y']
  · intro x0
    constructor <;> (rw [MuVar.forward_not_initialized m hinit]; rfl)
  · intro x1
    constructor <;> (rw [MuVar.forward_not_initialized m hinit]; rfl)

/-- Witness for the amended lazy-initialization failure theorem. -/
theorem muvar_init_flag_amended_witness :
    ((MuVar.mk' 2 1).forward (T.higher 0)).2 =
      Except.error "AttributeError: mu_var is not bound" ∧
    ((MuVar.mk' 2 1).forward (T.t1 [0])).1 = MuVar.mk' 2 1 :=
  ⟨((muvar_init_flag_amended (MuVar.mk' 2 1) rfl rfl).1 0).2.1,
    ((muvar_init_flag_amended (MuVar.mk' 2 1) rfl rfl).2.2 [0]).1⟩

/-- C10: the divisor used by real_nvp_element.inverse is s + eps with
s = exp(log_s) strictly positive for any sub-network output and any
clip setting, so with eps > 0 the divisor is strictly positive and the
inverse never divides by zero. -/
theorem inverse_divisor_positive :
    ∀ (n : ℕ) (e : real_nvp_element n) (y : Fin n → ℝ) (i : Fin n),
      0 < e.eps →
      (e.inverse y i =
        e.mask i * y i + (1 - e.mask i) *
          (y i - e.f_t (fun j => e.mask j * y j) i) /
            ((e.get_s fun j => e.mask j * y j).1 i + e.eps)) ∧
      0 < (e.get_s fun j => e.mask j * y j).1 i ∧
      0 < (e.get_s fun j => e.mask j * y j).1 i + e.eps ∧
      (e.get_s fun j => e.mask j * y j).1 i + e.eps ≠ 0 := by
  intro n e y i heps
  have hs : 0 < (e.get_s fun j => e.mask j * y j).1 i := e.get_s_pos _ i
  exact ⟨e.inverse_apply y i, hs, add_pos hs heps,
    ne_of_gt (add_pos hs heps)⟩

/-- Witness for the inverse-divisor theorem at a concrete layer. -/
theorem inverse_divisor_positive_witness :
    (0 : ℝ) < nvpDefault.eps ∧
    (nvpDefault.get_s fun j => nvpDefault.mask j * oneVec 2 j).1 0 +
      nvpDefault.eps ≠ 0 := by
  have heps : (0 : ℝ) < nvpDefault.eps := by
    show (0 : ℝ) < 1e-8
    norm_num
  exact ⟨heps,
    (inverse_divisor_positive 2 nvpDefault (oneVec 2) 0 heps).2.2.2⟩

end

end INN
